import Mathlib

/-!
Verification development for the `derive_more` Display-family derive generator
(`impl/src/display.rs`). The code is shallowly embedded in Lean: pure Rust
functions become Lean functions, fallible code returns `Except`/`Option`, and
code paths that would panic in Rust (out-of-bounds indexing, `unreachable!`,
`unimplemented!`) are made explicit via a dedicated result constructor.

The helper modules `crate::parsing` (the format-string grammar) and
`crate::utils` (the deterministic `HashMap`/`HashSet` aliases and
`get_if_type_parameter_used_in_type`) are not part of the available sources;
they are modelled from the specification, and every such definition is marked
with a doc comment starting with `Modelled from the spec:`.
-/

set_option autoImplicit false
set_option linter.unusedSectionVars false

namespace DeriveMore

/-! ## Deterministic set and association-list collections

Modelled from the spec: `utils::{HashMap, HashSet}` are not under the available
sources.  The spec mandates collections whose iteration order is deterministic
across runs on identical input ("Insertion order ... must be deterministic
across repeated runs on identical input"), so sets are modelled as
duplicate-free lists in insertion order and maps as association lists in key
insertion order, with operations mirroring the Rust `entry` API. -/

section Collections

variable {κ β : Type} [DecidableEq κ] [DecidableEq β]

/-- Insertion into a deterministic set: a no-op when the element is present,
appended at the end otherwise (mirrors `HashSet::insert`). -/
def setInsert (s : List β) (b : β) : List β :=
  if b ∈ s then s else s ++ [b]

/-- Insert every element of `bs` (mirrors `Extend::extend` on a `HashSet`). -/
def setExtend (s : List β) (bs : List β) : List β :=
  bs.foldl setInsert s

/-- Lookup of the set stored under a key; the empty set when absent. -/
def lookupSet : List (κ × List β) → κ → List β
  | [], _ => []
  | (k, s) :: rest, k' => if k' = k then s else lookupSet rest k'

/-- Mirror of `map.entry(k).or_insert_with(HashSet::default).insert(b)`. -/
def entryInsert : List (κ × List β) → κ → β → List (κ × List β)
  | [], k, b => [(k, setInsert [] b)]
  | (k', s) :: rest, k, b =>
      if k = k' then (k', setInsert s b) :: rest else (k', s) :: entryInsert rest k b

/-- Mirror of `map.entry(k).or_default().extend(bs)`. -/
def entryExtend : List (κ × List β) → κ → List β → List (κ × List β)
  | [], k, bs => [(k, setExtend [] bs)]
  | (k', s) :: rest, k, bs =>
      if k = k' then (k', setExtend s bs) :: rest else (k', s) :: entryExtend rest k bs

/-- Mirror of overwriting the set stored under `k` with `s` (the net effect of
`map.entry(k).or_insert_with(default)` followed by in-place mutation of the
returned set reference). -/
def entrySetTo : List (κ × List β) → κ → List β → List (κ × List β)
  | [], k, s => [(k, s)]
  | (k', s') :: rest, k, s =>
      if k = k' then (k', s) :: rest else (k', s') :: entrySetTo rest k s

/-- The keys of an association list, in insertion order. -/
def keysOf (m : List (κ × List β)) : List κ := m.map (·.1)

/-- Reference description of "first occurrence wins" deduplication, used to
characterize the deterministic-set iteration order independently of the
accumulator-based `setInsert` fold. -/
def dedupFirst : List β → List β
  | [] => []
  | b :: bs => b :: dedupFirst (bs.filter (· ≠ b))
termination_by l => l.length
decreasing_by
  simp only [List.length_cons]
  exact Nat.lt_succ_of_le (List.length_filter_le _ _)

theorem mem_setInsert (s : List β) (a b : β) :
    a ∈ setInsert s b ↔ a ∈ s ∨ a = b := by
  unfold setInsert
  by_cases h : b ∈ s
  · simp only [if_pos h]
    constructor
    · exact Or.inl
    · rintro (h' | rfl) <;> assumption
  · simp [if_neg h]

theorem mem_setExtend (s bs : List β) (a : β) :
    a ∈ setExtend s bs ↔ a ∈ s ∨ a ∈ bs := by
  induction bs generalizing s with
  | nil => simp [setExtend]
  | cons b bs ih =>
    show a ∈ setExtend (setInsert s b) bs ↔ _
    rw [ih, mem_setInsert]
    simp only [List.mem_cons]
    tauto

theorem nodup_setInsert (s : List β) (b : β) (h : s.Nodup) : (setInsert s b).Nodup := by
  unfold setInsert
  by_cases hb : b ∈ s
  · simpa [hb]
  · simp [hb, List.nodup_append, h]

theorem nodup_setExtend (s bs : List β) (h : s.Nodup) : (setExtend s bs).Nodup := by
  induction bs generalizing s with
  | nil => exact h
  | cons b bs ih => exact ih _ (nodup_setInsert _ _ h)

theorem lookupSet_entryInsert (m : List (κ × List β)) (k k' : κ) (b : β) :
    lookupSet (entryInsert m k b) k' =
      if k' = k then setInsert (lookupSet m k) b else lookupSet m k' := by
  induction m with
  | nil =>
    by_cases h : k' = k <;> simp [entryInsert, lookupSet, h]
  | cons e rest ih =>
    obtain ⟨ke, se⟩ := e
    by_cases hk : k = ke
    · subst hk
      by_cases h' : k' = k <;> simp [entryInsert, lookupSet, h']
    · by_cases h' : k' = ke
      · subst h'
        have h2 : ¬ (k' = k) := fun h => hk h.symm
        simp [entryInsert, hk, lookupSet, h2]
      · simp [entryInsert, hk, lookupSet, h', ih]

theorem lookupSet_entrySetTo (m : List (κ × List β)) (k k' : κ) (s : List β) :
    lookupSet (entrySetTo m k s) k' =
      if k' = k then s else lookupSet m k' := by
  induction m with
  | nil =>
    by_cases h : k' = k <;> simp [entrySetTo, lookupSet, h]
  | cons e rest ih =>
    obtain ⟨ke, se⟩ := e
    by_cases hk : k = ke
    · subst hk
      by_cases h' : k' = k <;> simp [entrySetTo, lookupSet, h']
    · by_cases h' : k' = ke
      · subst h'
        have h2 : ¬ (k' = k) := fun h => hk h.symm
        simp [entrySetTo, hk, lookupSet, h2]
      · simp [entrySetTo, hk, lookupSet, h', ih]

theorem keysOf_entryExtend (m : List (κ × List β)) (k : κ) (bs : List β) :
    keysOf (entryExtend m k bs) =
      if k ∈ keysOf m then keysOf m else keysOf m ++ [k] := by
  induction m with
  | nil => simp [entryExtend, keysOf]
  | cons e rest ih =>
    obtain ⟨ke, se⟩ := e
    by_cases hk : k = ke
    · subst hk
      simp [entryExtend, keysOf]
    · simp only [entryExtend, if_neg hk, keysOf, List.map_cons, List.mem_cons]
      have : ¬ k = ke := hk
      simp only [keysOf] at ih
      rw [ih]
      by_cases hmem : k ∈ rest.map (·.1)
      · simp [hmem, hk]
      · simp [hmem, hk]

theorem lookupSet_entryExtend (m : List (κ × List β)) (k k' : κ) (bs : List β) :
    lookupSet (entryExtend m k bs) k' =
      if k' = k then setExtend (lookupSet m k) bs else lookupSet m k' := by
  induction m with
  | nil =>
    by_cases h : k' = k <;> simp [entryExtend, lookupSet, h]
  | cons e rest ih =>
    obtain ⟨ke, se⟩ := e
    by_cases hk : k = ke
    · subst hk
      by_cases h' : k' = k <;> simp [entryExtend, lookupSet, h']
    · by_cases h' : k' = ke
      · subst h'
        have h2 : ¬ (k' = k) := fun h => hk h.symm
        simp [entryExtend, hk, lookupSet, h2]
      · simp [entryExtend, hk, lookupSet, h', ih]

theorem foldl_setInsert_eq_append_dedupFirst (l acc : List β) :
    l.foldl setInsert acc = acc ++ dedupFirst (l.filter (· ∉ acc)) := by
  induction l generalizing acc with
  | nil => simp [dedupFirst]
  | cons a l ih =>
    by_cases ha : a ∈ acc
    · have hfilter : (a :: l).filter (· ∉ acc) = l.filter (· ∉ acc) := by
        simp [List.filter_cons, ha]
      rw [hfilter]
      show (l.foldl setInsert (setInsert acc a)) = _
      rw [show setInsert acc a = acc from by simp [setInsert, ha]]
      exact ih acc
    · have hstep : setInsert acc a = acc ++ [a] := by simp [setInsert, ha]
      show (l.foldl setInsert (setInsert acc a)) = _
      rw [hstep, ih (acc ++ [a])]
      have hfilter : (a :: l).filter (· ∉ acc) = a :: l.filter (· ∉ acc) := by
        simp [List.filter_cons, ha]
      rw [hfilter]
      have hded : dedupFirst (a :: l.filter (· ∉ acc))
          = a :: dedupFirst ((l.filter (· ∉ acc)).filter (· ≠ a)) := by
        simp [dedupFirst]
      rw [hded]
      have hff : l.filter (fun x => x ∉ acc ++ [a])
          = (l.filter (· ∉ acc)).filter (· ≠ a) := by
        rw [List.filter_filter]
        apply List.filter_congr
        intro x _
        by_cases hx : x ∈ acc <;> by_cases hxa : x = a <;>
          simp [hx, hxa, List.mem_append]
      rw [hff]
      simp

end Collections

/-! ## The format-string grammar (`crate::parsing`)

Modelled from the spec: the module `crate::parsing` with `format_string`,
`Argument`, `Count`, `Precision` and the placeholder type selector is not
under the available sources.  It is modelled from spec section 4.1: literal
text interleaved with `\x7b...\x7d` placeholders, escaped `\x7b\x7b`/`\x7d\x7d`
brace pairs contributing no placeholder, an optional explicit argument
(non-negative integer index or identifier), and an optional `:`-prefixed
format spec `[[fill]align][sign][#][0][width][.precision][type]` where width
and precision may name an argument with a `$` suffix, and the type specifier
selects the formatting trait (empty selects Display, `?` Debug, `x`/`X`
LowerHex/UpperHex, and so on over the closed nine-trait set). -/

namespace parsing

/-- Explicit reference to a formatting argument. -/
inductive Argument
  | integer (i : Nat)
  | identifier (s : String)
  deriving DecidableEq

/-- A width or precision count: a literal integer or a `$`-suffixed argument. -/
inductive Count
  | parameter (arg : Argument)
  | integer (i : Nat)
  deriving DecidableEq

/-- A precision specification (`.*` or a count). -/
inductive Precision
  | count (c : Count)
  | star
  deriving DecidableEq

/-- The formatting-trait selector written after the colon. -/
inductive Ty
  | display
  | debug
  | lowerDebug
  | upperDebug
  | octal
  | lowerHex
  | upperHex
  | pointer
  | binary
  | lowerExp
  | upperExp
  deriving DecidableEq

/-- Name of the `core::fmt` trait rendering a placeholder of this type. -/
def Ty.trait_name : Ty → String
  | .display => "Display"
  | .debug => "Debug"
  | .lowerDebug => "Debug"
  | .upperDebug => "Debug"
  | .octal => "Octal"
  | .lowerHex => "LowerHex"
  | .upperHex => "UpperHex"
  | .pointer => "Pointer"
  | .binary => "Binary"
  | .lowerExp => "LowerExp"
  | .upperExp => "UpperExp"

/-- Alignment selector inside a format spec. -/
inductive Align
  | left
  | center
  | right
  deriving DecidableEq

/-- Sign flag inside a format spec. -/
inductive Sign
  | plus
  | minus
  deriving DecidableEq

/-- The parsed `:`-suffix of one placeholder. -/
structure FormatSpec where
  fill : Option Char
  align : Option Align
  sign : Option Sign
  alternate : Bool
  zero_padding : Bool
  width : Option Count
  precision : Option Precision
  ty : Ty
  deriving DecidableEq

/-- One parsed placeholder as produced by the grammar: an optional explicit
argument reference and an optional format spec. -/
structure Format where
  arg : Option Argument
  spec : Option FormatSpec
  deriving DecidableEq

/-- Character class opening a Rust identifier. -/
def isIdentStart (c : Char) : Bool := c.isAlpha || c = '_'

/-- Character class continuing a Rust identifier. -/
def isIdentCont (c : Char) : Bool := c.isAlphanum || c = '_'

/-- Numeric value of a digit string. -/
def digitsToNat (ds : List Char) : Nat :=
  ds.foldl (fun n c => n * 10 + (c.toNat - '0'.toNat)) 0

/-- Parse an explicit argument reference (integer index or identifier),
longest match, returning the rest of the input. -/
def parseArgument (cs : List Char) : Option (Argument × List Char) :=
  match cs with
  | [] => none
  | c :: _ =>
    if c.isDigit then
      let ds := cs.takeWhile (·.isDigit)
      some (.integer (digitsToNat ds), cs.dropWhile (·.isDigit))
    else if isIdentStart c then
      let is := cs.takeWhile isIdentCont
      some (.identifier (String.mk is), cs.dropWhile isIdentCont)
    else
      none

/-- Parse a count: an argument followed by `$`, or a bare integer. -/
def parseCount (cs : List Char) : Option (Count × List Char) :=
  match parseArgument cs with
  | some (a, '$' :: rest) => some (.parameter a, rest)
  | _ =>
    match cs with
    | [] => none
    | c :: _ =>
      if c.isDigit then
        some (.integer (digitsToNat (cs.takeWhile (·.isDigit))), cs.dropWhile (·.isDigit))
      else none

/-- Parse the trait-selecting type specifier (must be last before the closing
brace, which is left in the input). -/
def parseTy (cs : List Char) : Option (Ty × List Char) :=
  match cs with
  | '?' :: rest => some (.debug, rest)
  | 'x' :: '?' :: rest => some (.lowerDebug, rest)
  | 'X' :: '?' :: rest => some (.upperDebug, rest)
  | 'o' :: rest => some (.octal, rest)
  | 'x' :: rest => some (.lowerHex, rest)
  | 'X' :: rest => some (.upperHex, rest)
  | 'p' :: rest => some (.pointer, rest)
  | 'b' :: rest => some (.binary, rest)
  | 'e' :: rest => some (.lowerExp, rest)
  | 'E' :: rest => some (.upperExp, rest)
  | rest => some (.display, rest)

/-- Whether a character is an alignment selector. -/
def alignOf : Char → Option Align
  | '<' => some .left
  | '^' => some .center
  | '>' => some .right
  | _ => none

/-- Parse the format spec between the colon and the closing brace. -/
def parseFormatSpec (cs : List Char) : Option (FormatSpec × List Char) := do
  let (fill, align, cs) :=
    match cs with
    | c1 :: c2 :: rest =>
      match alignOf c2 with
      | some al => (some c1, some al, rest)
      | none =>
        match alignOf c1 with
        | some al => (none, some al, c2 :: rest)
        | none => (none, none, cs)
    | [c1] =>
      match alignOf c1 with
      | some al => (none, some al, ([] : List Char))
      | none => (none, none, cs)
    | [] => (none, none, cs)
  let (sign, cs) : Option Sign × List Char :=
    match cs with
    | '+' :: rest => (some .plus, rest)
    | '-' :: rest => (some .minus, rest)
    | _ => (none, cs)
  let (alternate, cs) : Bool × List Char :=
    match cs with
    | '#' :: rest => (true, rest)
    | _ => (false, cs)
  let (zero_padding, cs) : Bool × List Char :=
    match cs with
    | '0' :: rest => if rest.head? = some '$' then (false, cs) else (true, rest)
    | _ => (false, cs)
  let (width, cs) : Option Count × List Char :=
    match parseCount cs with
    | some (c, rest) => (some c, rest)
    | none => (none, cs)
  let (precision, cs) ←
    match cs with
    | '.' :: rest =>
      match rest with
      | '*' :: rest2 => some ((some Precision.star : Option Precision), rest2)
      | _ => (parseCount rest).map (fun (c, rest2) => (some (Precision.count c), rest2))
    | _ => some ((none : Option Precision), cs)
  let (ty, cs) ← parseTy cs
  pure ({ fill, align, sign, alternate, zero_padding, width, precision, ty }, cs)

/-- Parse the inside of one placeholder, after the opening brace, consuming the
closing brace. -/
def parseFormat (cs : List Char) : Option (Format × List Char) :=
  let (arg, cs') :=
    match parseArgument cs with
    | some (a, rest) => ((some a : Option Argument), rest)
    | none => (none, cs)
  match cs' with
  | ':' :: rest =>
    match parseFormatSpec rest with
    | some (spec, '}' :: rest2) => some ({ arg, spec := some spec }, rest2)
    | _ => none
  | '}' :: rest => some ({ arg, spec := none }, rest)
  | _ => none

/-- Scanner over the whole string, fuelled by the input length: escaped brace
pairs are skipped as literal text, placeholders are parsed, a placeholder whose
interior does not match the grammar is treated as literal text, and unmatched
brace nesting makes the whole parse fail. -/
def scanFormats : Nat → List Char → Option (List Format)
  | _, [] => some []
  | 0, _ :: _ => none
  | n + 1, '{' :: '{' :: rest => scanFormats n rest
  | n + 1, '}' :: '}' :: rest => scanFormats n rest
  | n + 1, '{' :: rest =>
    (match parseFormat rest with
     | some (f, rest') => (scanFormats n rest').map (f :: ·)
     | none =>
       match rest.dropWhile (· ≠ '}') with
       | '}' :: rest' => scanFormats n rest'
       | _ => none)
  | _ + 1, '}' :: _ => none
  | n + 1, _ :: rest => scanFormats n rest

/-- The parsed form of a whole format string. -/
structure FormatString where
  formats : List Format
  deriving DecidableEq

/-- Modelled from the spec: `parsing::format_string`, the entry point of the
format-string grammar, returning `none` exactly on invalid brace nesting. -/
def format_string (s : String) : Option FormatString :=
  (scanFormats s.length s.data).map FormatString.mk

/-- The placeholder descriptors of a format string, in order of appearance;
mirrors `parsing::format_string(s).into_iter().flat_map(|f| f.formats)`. -/
def formats (s : String) : List Format :=
  match format_string s with
  | none => []
  | some fs => fs.formats

end parsing

/-! ## The placeholder model (`impl/src/display.rs`) -/

/-- A formatting parameter: positional index or named identifier
(`display.rs`, `enum Parameter`). -/
inductive Parameter
  | positional (i : Nat)
  | named (s : String)
  deriving DecidableEq

/-- Conversion from a parsed argument (`impl From<parsing::Argument> for Parameter`). -/
def Parameter.ofArgument : parsing.Argument → Parameter
  | .integer i => .positional i
  | .identifier s => .named s

/-- One normalized formatting placeholder (`display.rs`, `struct Placeholder`). -/
structure Placeholder where
  arg : Parameter
  width : Option Parameter
  precision : Option Parameter
  trait_name : String
  deriving DecidableEq

/-- The placeholder constructed from one parsed format descriptor, given the
already-resolved primary parameter; factors the body of the closure inside
`Placeholder::parse_fmt_string`. -/
def Placeholder.ofFormat (f : parsing.Format) (pos : Parameter) : Placeholder :=
  { arg := pos
    width :=
      match f.spec with
      | some s =>
        match s.width with
        | some (.parameter a) => some (Parameter.ofArgument a)
        | _ => none
      | none => none
    precision :=
      match f.spec with
      | some s =>
        match s.precision with
        | some (.count (.parameter a)) => some (Parameter.ofArgument a)
        | _ => none
      | none => none
    trait_name :=
      (match f.spec with
       | some s => s.ty
       | none => parsing.Ty.display).trait_name }

/-- The counter-threading loop of `Placeholder::parse_fmt_string`: placeholders
without an explicit argument receive the next implicit positional index `n`,
which advances only for them. -/
def assignPlaceholders : Nat → List parsing.Format → List Placeholder
  | _, [] => []
  | n, f :: fs =>
    match f.arg with
    | some a => Placeholder.ofFormat f (Parameter.ofArgument a) :: assignPlaceholders n fs
    | none => Placeholder.ofFormat f (.positional n) :: assignPlaceholders (n + 1) fs

/-- `Placeholder::parse_fmt_string` (`display.rs` lines 806-842). -/
def Placeholder.parse_fmt_string (s : String) : List Placeholder :=
  assignPlaceholders 0 (parsing.formats s)

/-! ## Claims C1 and C2: the format-string parser -/

theorem assignPlaceholders_length (n : Nat) (fs : List parsing.Format) :
    (assignPlaceholders n fs).length = fs.length := by
  induction fs generalizing n with
  | nil => rfl
  | cons f fs ih =>
    cases h : f.arg <;> simp [assignPlaceholders, h, ih]

theorem assignPlaceholders_getElem_some (n i : Nat) (fs : List parsing.Format)
    (h : i < fs.length) (a : parsing.Argument) (ha : (fs.get ⟨i, h⟩).arg = some a) :
    (assignPlaceholders n fs)[i]? =
      some (Placeholder.ofFormat (fs.get ⟨i, h⟩) (Parameter.ofArgument a)) := by
  induction fs generalizing n i with
  | nil => cases h
  | cons f fs ih =>
    cases i with
    | zero =>
      have : f.arg = some a := ha
      simp [assignPlaceholders, this]
    | succ i =>
      have h' : i < fs.length := Nat.lt_of_succ_lt_succ h
      have ha' : (fs.get ⟨i, h'⟩).arg = some a := ha
      cases harg : f.arg with
      | some b =>
        have hstep : (assignPlaceholders n (f :: fs))[i + 1]? =
            (assignPlaceholders n fs)[i]? := by
          simp [assignPlaceholders, harg]
        rw [hstep, ih n i h' ha']
        rfl
      | none =>
        have hstep : (assignPlaceholders n (f :: fs))[i + 1]? =
            (assignPlaceholders (n + 1) fs)[i]? := by
          simp [assignPlaceholders, harg]
        rw [hstep, ih (n + 1) i h' ha']
        rfl

theorem assignPlaceholders_getElem_none (n i : Nat) (fs : List parsing.Format)
    (h : i < fs.length) (ha : (fs.get ⟨i, h⟩).arg = none) :
    (assignPlaceholders n fs)[i]? =
      some (Placeholder.ofFormat (fs.get ⟨i, h⟩)
        (Parameter.positional (n + (fs.take i).countP (fun g => g.arg.isNone)))) := by
  induction fs generalizing n i with
  | nil => cases h
  | cons f fs ih =>
    cases i with
    | zero =>
      have h0 : f.arg = none := ha
      simp [assignPlaceholders, h0]
    | succ i =>
      have h' : i < fs.length := Nat.lt_of_succ_lt_succ h
      have ha' : (fs.get ⟨i, h'⟩).arg = none := ha
      have htake : (f :: fs).take (i + 1) = f :: fs.take i := rfl
      cases harg : f.arg with
      | some b =>
        have hstep : (assignPlaceholders n (f :: fs))[i + 1]? =
            (assignPlaceholders n fs)[i]? := by
          simp [assignPlaceholders, harg]
        rw [hstep, ih n i h' ha', htake]
        have hcount : (f :: fs.take i).countP (fun g => g.arg.isNone)
            = (fs.take i).countP (fun g => g.arg.isNone) := by
          simp [List.countP_cons, harg]
        rw [hcount]
        rfl
      | none =>
        have hstep : (assignPlaceholders n (f :: fs))[i + 1]? =
            (assignPlaceholders (n + 1) fs)[i]? := by
          simp [assignPlaceholders, harg]
        rw [hstep, ih (n + 1) i h' ha', htake]
        have hcount : (f :: fs.take i).countP (fun g => g.arg.isNone)
            = (fs.take i).countP (fun g => g.arg.isNone) + 1 := by
          simp [List.countP_cons, harg]
        rw [hcount]
        have harith : n + 1 + (fs.take i).countP (fun g => g.arg.isNone)
            = n + ((fs.take i).countP (fun g => g.arg.isNone) + 1) := by omega
        rw [harith]
        rfl

/-- Claim C1: parsing the format string
`"\x7b},\x7b:?},\x7b\x7b}},\x7b\x7b\x7b1:0$}}}-\x7b2:.1$x}\x7bpar:#?}\x7b:width$}"`
with the format-string parser returns exactly six placeholders, in order:
(Positional 0, Display), (Positional 1, Debug),
(Positional 1, width = Positional 0, Display),
(Positional 2, precision = Positional 1, LowerHex), (Named "par", Debug),
(Positional 2, width = Named "width", Display); the escaped brace pairs
produce no placeholder. -/
theorem claim_C1_parse_fmt_string_example :
    Placeholder.parse_fmt_string
        "\x7b\x7d,\x7b:?\x7d,\x7b\x7b\x7d\x7d,\x7b\x7b\x7b1:0$\x7d\x7d\x7d-\x7b2:.1$x\x7d\x7bpar:#?\x7d\x7b:width$\x7d" =
      [⟨Parameter.positional 0, none, none, "Display"⟩,
       ⟨Parameter.positional 1, none, none, "Debug"⟩,
       ⟨Parameter.positional 1, some (Parameter.positional 0), none, "Display"⟩,
       ⟨Parameter.positional 2, none, some (Parameter.positional 1), "LowerHex"⟩,
       ⟨Parameter.named "par", none, none, "Debug"⟩,
       ⟨Parameter.positional 2, some (Parameter.named "width"), none, "Display"⟩] := by
  decide

/-- Claim C2: for every format string, within one call of the format-string
parser, each placeholder lacking an explicit argument reference is assigned
the next unclaimed implicit positional index (the count of earlier
argument-less placeholders, starting at 0, in left-to-right order), the
implicit counter advances only for such placeholders, and placeholders with
explicit positional or named references keep their explicit reference and
never consume an implicit slot. -/
theorem claim_C2_implicit_positional_assignment (s : String) (i : Nat)
    (h : i < (parsing.formats s).length) :
    (Placeholder.parse_fmt_string s).length = (parsing.formats s).length ∧
    (∀ a : parsing.Argument,
      ((parsing.formats s).get ⟨i, h⟩).arg = some a →
        (Placeholder.parse_fmt_string s)[i]? =
          some (Placeholder.ofFormat ((parsing.formats s).get ⟨i, h⟩)
            (Parameter.ofArgument a))) ∧
    (((parsing.formats s).get ⟨i, h⟩).arg = none →
      (Placeholder.parse_fmt_string s)[i]? =
        some (Placeholder.ofFormat ((parsing.formats s).get ⟨i, h⟩)
          (Parameter.positional
            (((parsing.formats s).take i).countP (fun g => g.arg.isNone))))) := by
  refine ⟨assignPlaceholders_length 0 _, ?_, ?_⟩
  · intro a ha
    exact assignPlaceholders_getElem_some 0 i _ h a ha
  · intro ha
    have hmain := assignPlaceholders_getElem_none 0 i _ h ha
    simpa using hmain

/-! ## Generic association-list facts shared by the bounds claims -/

section MoreCollections

variable {κ β : Type} [DecidableEq κ] [DecidableEq β]

/-- First-match lookup in an association list (mirrors a `HashMap` read; the
maps built below have unique keys). -/
def assocFind : List (κ × β) → κ → Option β
  | [], _ => none
  | (k, b) :: rest, k' => if k' = k then some b else assocFind rest k'

/-- Mirror of `for (k, v) in extra { merged.entry(k).or_default().extend(v) }`. -/
def mergeEntries (m e : List (κ × List β)) : List (κ × List β) :=
  e.foldl (fun acc p => entryExtend acc p.1 p.2) m

theorem lookupSet_eq_nil_of_not_mem_keys (m : List (κ × List β)) (k : κ)
    (h : k ∉ keysOf m) : lookupSet m k = [] := by
  induction m with
  | nil => rfl
  | cons e rest ih =>
    obtain ⟨ke, se⟩ := e
    simp only [keysOf, List.map_cons, List.mem_cons] at h
    push_neg at h
    simp only [lookupSet, if_neg h.1]
    exact ih h.2

theorem mem_lookupSet_entryInsert (m : List (κ × List β)) (k k' : κ) (b b' : β) :
    b ∈ lookupSet (entryInsert m k' b') k ↔
      b ∈ lookupSet m k ∨ (k = k' ∧ b = b') := by
  rw [lookupSet_entryInsert]
  by_cases hk : k = k'
  · subst hk
    rw [if_pos rfl, mem_setInsert]
    tauto
  · rw [if_neg hk]
    tauto

theorem keysOf_mergeEntries (e : List (κ × List β)) :
    ∀ m : List (κ × List β), (keysOf e).Nodup →
      keysOf (mergeEntries m e) =
        keysOf m ++ (keysOf e).filter (fun k => k ∉ keysOf m) := by
  induction e with
  | nil => intro m _; simp [mergeEntries, keysOf]
  | cons p rest ih =>
    obtain ⟨k, s⟩ := p
    intro m h
    have hk2 : (k :: keysOf rest).Nodup := h
    have hknotin : k ∉ keysOf rest := (List.nodup_cons.mp hk2).1
    have hnd : (keysOf rest).Nodup := (List.nodup_cons.mp hk2).2
    show keysOf (mergeEntries (entryExtend m k s) rest) = _
    rw [ih (entryExtend m k s) hnd, keysOf_entryExtend]
    by_cases hkm : k ∈ keysOf m
    · rw [if_pos hkm]
      have : (keysOf ((k, s) :: rest)).filter (fun x => x ∉ keysOf m)
          = (keysOf rest).filter (fun x => x ∉ keysOf m) := by
        show (k :: keysOf rest).filter _ = _
        rw [List.filter_cons]
        simp [hkm]
      rw [this]
    · rw [if_neg hkm]
      have hfeq : (keysOf rest).filter (fun x => x ∉ keysOf m ++ [k])
          = (keysOf rest).filter (fun x => x ∉ keysOf m) := by
        apply List.filter_congr
        intro x hx
        have hxk : x ≠ k := fun hh => hknotin (hh ▸ hx)
        by_cases hxm : x ∈ keysOf m <;> simp [hxm, hxk, List.mem_append]
      rw [hfeq]
      have : (keysOf ((k, s) :: rest)).filter (fun x => x ∉ keysOf m)
          = k :: (keysOf rest).filter (fun x => x ∉ keysOf m) := by
        show (k :: keysOf rest).filter _ = _
        rw [List.filter_cons]
        simp [hkm]
      rw [this, List.append_assoc]
      rfl

theorem lookupSet_mergeEntries (e : List (κ × List β)) :
    ∀ (m : List (κ × List β)) (k : κ) (b : β), (keysOf e).Nodup →
      (b ∈ lookupSet (mergeEntries m e) k ↔
        b ∈ lookupSet m k ∨ b ∈ lookupSet e k) := by
  induction e with
  | nil =>
    intro m k b _
    simp [mergeEntries, lookupSet]
  | cons p rest ih =>
    obtain ⟨ke, se⟩ := p
    intro m k b h
    have hk2 : (ke :: keysOf rest).Nodup := h
    have hknotin : ke ∉ keysOf rest := (List.nodup_cons.mp hk2).1
    have hnd : (keysOf rest).Nodup := (List.nodup_cons.mp hk2).2
    show b ∈ lookupSet (mergeEntries (entryExtend m ke se) rest) k ↔ _
    rw [ih (entryExtend m ke se) k b hnd, lookupSet_entryExtend]
    by_cases hk : k = ke
    · subst hk
      rw [if_pos rfl]
      have hrest : lookupSet rest k = [] := lookupSet_eq_nil_of_not_mem_keys _ _ hknotin
      have hmem := mem_setExtend (lookupSet m k) se b
      simp only [lookupSet, if_pos rfl, hrest, hmem]
      simp
    · rw [if_neg hk]
      simp [lookupSet, hk]

end MoreCollections

/-! ## Types, trait bounds and the bounds-inference engine -/

/-- A simplified syntactic type expression: a bare single-ident path (possibly
one of the declared type parameters), a non-parameter path head, a (curried)
generic type application, or a reference type. -/
inductive SynType
  | param (name : String)
  | path (head : String)
  | app (fn : SynType) (arg : SynType)
  | reference (elem : SynType)
  deriving DecidableEq

/-- All bare-path names structurally contained in a type expression. -/
def SynType.usedNames : SynType → List String
  | .param n => [n]
  | .path _ => []
  | .app fn arg => fn.usedNames ++ arg.usedNames
  | .reference e => e.usedNames

/-- Modelled from the spec: `utils::get_if_type_parameter_used_in_type` is not
under the available sources.  Spec section 4.3: when a field's type "is (or
structurally contains ...) one of the item's declared type parameters", the
engine "requires that parameter to satisfy the trait", and bound requirements
are "keyed by type parameter" — so the function yields the first declared
type parameter structurally contained in the type, as a bare type. -/
def get_if_type_parameter_used_in_type (type_params : List String) (ty : SynType) :
    Option SynType :=
  (ty.usedNames.find? (fun n => type_params.contains n)).map SynType.param

/-- A trait bound, as a path of segments (`display.rs` builds
`::core::fmt::<TraitName>` bounds; user-written bounds keep their own path). -/
structure TraitBound where
  segments : List String
  deriving DecidableEq

/-- `trait_name_to_trait_bound` (`display.rs` lines 112-126). -/
def trait_name_to_trait_bound (trait_name : String) : TraitBound :=
  ⟨["core", "fmt", trait_name]⟩

/-- `trait_name_to_attribute_name` (`display.rs` lines 83-96); `none` models
the `unimplemented!()` panic on the wildcard arm. -/
def trait_name_to_attribute_name : String → Option String
  | "Display" => some "display"
  | "Binary" => some "binary"
  | "Octal" => some "octal"
  | "LowerHex" => some "lower_hex"
  | "UpperHex" => some "upper_hex"
  | "LowerExp" => some "lower_exp"
  | "UpperExp" => some "upper_exp"
  | "Pointer" => some "pointer"
  | "Debug" => some "debug"
  | _ => none

/-- `attribute_name_to_trait_name` (`display.rs` lines 98-110); `none` models
the `unreachable!()` panic on the wildcard arm.  Note the absence of a
`"debug"` arm, although `trait_name_to_attribute_name` produces `"debug"`. -/
def attribute_name_to_trait_name : String → Option String
  | "display" => some "Display"
  | "binary" => some "Binary"
  | "octal" => some "Octal"
  | "lower_hex" => some "LowerHex"
  | "upper_hex" => some "UpperHex"
  | "lower_exp" => some "LowerExp"
  | "upper_exp" => some "UpperExp"
  | "pointer" => some "Pointer"
  | _ => none

/-- Outcome of a code path that may return a value, return a `syn::Error`, or
panic (out-of-bounds indexing, `unreachable!`, `unimplemented!`). -/
inductive MacroResult (α : Type)
  | ok (val : α)
  | err (msg : String)
  | panicked
  deriving DecidableEq

/-- One field of a struct or enum variant: optional name and type. -/
structure Field where
  ident : Option String
  ty : SynType
  deriving DecidableEq

/-- `syn::Fields`: unit, unnamed (tuple) or named fields. -/
inductive Fields
  | unit
  | unnamed (fields : List Field)
  | named (fields : List Field)
  deriving DecidableEq

/-- The underlying field list (`syn::Fields::iter`). -/
def Fields.fieldList : Fields → List Field
  | .unit => []
  | .unnamed fs => fs
  | .named fs => fs

/-- Map of bound requirements keyed by type (`HashMap<syn::Type,
HashSet<syn::TraitBound>>`), modelled deterministically. -/
abbrev Bounds := List (SynType × List TraitBound)

/-- The `fields_type_params` map of `State::get_used_type_params_bounds`
(`display.rs` lines 651-667): each field whose type uses a declared type
parameter, keyed by its name (or `_i` for tuple fields). -/
def fields_type_params (type_params : List String) (fields : Fields) :
    List (String × SynType) :=
  fields.fieldList.enum.filterMap (fun p =>
    (get_if_type_parameter_used_in_type type_params p.2.ty).map
      (fun ty => (p.2.ident.getD ("_" ++ toString p.1), ty)))

/-- An explicit argument supplied after the format literal: a string literal
(whose host-language parse into a path may fail) or a bare path. -/
inductive ExplicitArg
  | strLit (parsed : Option String)
  | pathArg (p : String)
  deriving DecidableEq

/-- The `fmt_args` map of `State::get_used_type_params_bounds` (`display.rs`
lines 676-689): explicit arguments indexed by position, dropping string
literals that do not parse as paths. -/
def fmt_args (args : List ExplicitArg) : List (Nat × String) :=
  args.enum.filterMap (fun p =>
    match p.2 with
    | .strLit parsed => parsed.map (fun q => (p.1, q))
    | .pathArg q => some (p.1, q))

/-- Resolution of a placeholder's argument against the explicit argument list
(the closure in `display.rs` lines 711-716): positional placeholders are
looked up in `fmt_args`, named placeholders become the path of their own
name. -/
def resolve_fmt_arg (args : List ExplicitArg) : Parameter → Option String
  | .positional i => assocFind (fmt_args args) i
  | .named s => some s

/-- One step of the placeholder fold of `State::get_used_type_params_bounds`
(`display.rs` lines 708-727). -/
def gutpb_step (ftp : List (String × SynType)) (args : List ExplicitArg)
    (bounds : Bounds) (pl : Placeholder) : Bounds :=
  match resolve_fmt_arg args pl.arg with
  | some a =>
    match assocFind ftp a with
    | some ty => entryInsert bounds ty (trait_name_to_trait_bound pl.trait_name)
    | none => bounds
  | none => bounds

/-- `State::get_used_type_params_bounds` (`display.rs` lines 642-728). -/
def get_used_type_params_bounds (type_params : List String) (fields : Fields)
    (fmt : String) (args : List ExplicitArg) : Bounds :=
  if type_params.isEmpty then []
  else if (fields_type_params type_params fields).isEmpty then []
  else
    (Placeholder.parse_fmt_string fmt).foldl
      (gutpb_step (fields_type_params type_params fields) args) []

/-- `State::infer_type_params_bounds` (`display.rs` lines 729-758); reaches
`attribute_name_to_trait_name` (modelled `unreachable!()` as `panicked`) when
the first field's type uses a declared type parameter. -/
def infer_type_params_bounds (type_params : List String) (fields : Fields)
    (trait_attr : String) : MacroResult Bounds :=
  if type_params.isEmpty then .ok []
  else
    match fields with
    | .unit => .ok []
    | _ =>
      (fields.fieldList.take 1).foldl
        (fun acc field =>
          match acc with
          | .ok m =>
            match get_if_type_parameter_used_in_type type_params field.ty with
            | some ty =>
              match attribute_name_to_trait_name trait_attr with
              | some tn => .ok (m ++ [(ty, [trait_name_to_trait_bound tn])])
              | none => .panicked
            | none => .ok m
          | other => other)
        (.ok [])

/-- The merge of explicit bounds into the accumulated bounds
(`display.rs` lines 636-638). -/
def mergeBounds (bounds extra : Bounds) : Bounds :=
  mergeEntries bounds extra

/-- The `map_argument` closure of `State::parse_meta_fmt` (`display.rs`
lines 421-424): keep named parameters, drop positional ones. -/
def map_argument : Parameter → Option String
  | .named s => some s
  | .positional _ => none

/-- The named parameters referenced by the placeholders of a format string
(primary argument, width, precision), with multiplicity, in order
(`display.rs` lines 418-429). -/
def named_params (pls : List Placeholder) : List String :=
  pls.flatMap (fun p =>
    (map_argument p.arg).toList ++ (p.width.bind map_argument).toList
      ++ (p.precision.bind map_argument).toList)

/-- The deduplicated pass-through bindings interpolated into the generated
`write!` call (`display.rs` lines 418-436): the named parameters collected
into a set, then emitted once each. -/
def interpolated_args (pls : List Placeholder) : List String :=
  (named_params pls).foldl setInsert []

/-! ## Claims C4, C5, C6 and C10: bounds inference and emission -/

theorem map_argument_eq_some (p : Parameter) (s : String) :
    map_argument p = some s ↔ p = Parameter.named s := by
  cases p <;> simp [map_argument]

theorem bind_map_argument_eq_some (o : Option Parameter) (s : String) :
    o.bind map_argument = some s ↔ o = some (Parameter.named s) := by
  cases o with
  | none => simp
  | some p => cases p <;> simp [map_argument]

theorem fields_type_params_nil (fields : Fields) :
    fields_type_params [] fields = [] := by
  unfold fields_type_params
  rw [List.filterMap_eq_nil_iff]
  intro p _
  have : get_if_type_parameter_used_in_type [] p.2.ty = none := by
    unfold get_if_type_parameter_used_in_type
    rw [List.find?_eq_none.mpr]
    · rfl
    · intro x _
      simp
  rw [this]
  rfl

theorem gutpb_fold_mem (ftp : List (String × SynType)) (args : List ExplicitArg)
    (pls : List Placeholder) :
    ∀ (init : Bounds) (ty : SynType) (b : TraitBound),
      (b ∈ lookupSet (pls.foldl (gutpb_step ftp args) init) ty ↔
        b ∈ lookupSet init ty ∨
        ∃ pl ∈ pls, ∃ a, resolve_fmt_arg args pl.arg = some a ∧
          assocFind ftp a = some ty ∧
          b = trait_name_to_trait_bound pl.trait_name) := by
  induction pls with
  | nil =>
    intro init ty b
    simp
  | cons pl rest ih =>
    intro init ty b
    show b ∈ lookupSet (rest.foldl _ (gutpb_step ftp args init pl)) ty ↔ _
    rw [ih]
    cases hres : resolve_fmt_arg args pl.arg with
    | none =>
      simp only [gutpb_step, hres, List.mem_cons]
      constructor
      · rintro (h | ⟨pl', h1, h2⟩)
        · exact Or.inl h
        · exact Or.inr ⟨pl', Or.inr h1, h2⟩
      · rintro (h | ⟨pl', hmem, a, ha, hrest⟩)
        · exact Or.inl h
        · rcases hmem with rfl | hmem'
          · rw [hres] at ha; cases ha
          · exact Or.inr ⟨pl', hmem', a, ha, hrest⟩
    | some a =>
      cases hfind : assocFind ftp a with
      | none =>
        simp only [gutpb_step, hres, hfind, List.mem_cons]
        constructor
        · rintro (h | ⟨pl', h1, h2⟩)
          · exact Or.inl h
          · exact Or.inr ⟨pl', Or.inr h1, h2⟩
        · rintro (h | ⟨pl', hmem, a', ha', hf', hb'⟩)
          · exact Or.inl h
          · rcases hmem with rfl | hmem'
            · rw [hres] at ha'
              cases ha'
              rw [hfind] at hf'
              cases hf'
            · exact Or.inr ⟨pl', hmem', a', ha', hf', hb'⟩
      | some ty' =>
        simp only [gutpb_step, hres, hfind, List.mem_cons,
          mem_lookupSet_entryInsert]
        constructor
        · rintro ((h | ⟨rfl, rfl⟩) | ⟨pl', h1, h2⟩)
          · exact Or.inl h
          · exact Or.inr ⟨pl, Or.inl rfl, a, hres, hfind, rfl⟩
          · exact Or.inr ⟨pl', Or.inr h1, h2⟩
        · rintro (h | ⟨pl', hmem, a', ha', hf', hb'⟩)
          · exact Or.inl (Or.inl h)
          · rcases hmem with rfl | hmem'
            · rw [hres] at ha'
              cases ha'
              rw [hfind] at hf'
              cases hf'
              exact Or.inl (Or.inr ⟨rfl, hb'⟩)
            · exact Or.inr ⟨pl', hmem', a', ha', hf', hb'⟩

/-- Claim C4: within one explicit format string, a trait bound is recorded
for a type parameter exactly when some placeholder resolves to an argument
naming a field whose type uses that parameter and selects that bound's trait
— so two placeholders resolving to the same parameter with different traits
both contribute, a union and never a conflict; and the final bounds handed to
code emission read, key by key, as the set union of the inferred and the
explicit bounds. -/
theorem claim_C4_union_of_bounds (type_params : List String) (fields : Fields)
    (fmt : String) (args : List ExplicitArg) (ty : SynType) (b : TraitBound)
    (bounds extra : Bounds) (k : SynType) (b' : TraitBound)
    (hnd : (keysOf extra).Nodup) :
    (b ∈ lookupSet (get_used_type_params_bounds type_params fields fmt args) ty ↔
      ∃ pl ∈ Placeholder.parse_fmt_string fmt, ∃ a,
        resolve_fmt_arg args pl.arg = some a ∧
        assocFind (fields_type_params type_params fields) a = some ty ∧
        b = trait_name_to_trait_bound pl.trait_name) ∧
    (b' ∈ lookupSet (mergeBounds bounds extra) k ↔
      b' ∈ lookupSet bounds k ∨ b' ∈ lookupSet extra k) := by
  constructor
  · unfold get_used_type_params_bounds
    by_cases h1 : type_params.isEmpty
    · rw [if_pos h1]
      have h1' : type_params = [] := List.isEmpty_iff.mp h1
      subst h1'
      rw [fields_type_params_nil]
      simp [lookupSet, assocFind]
    · rw [if_neg h1]
      by_cases h2 : (fields_type_params type_params fields).isEmpty
      · rw [if_pos h2]
        have h2' : fields_type_params type_params fields = [] :=
          List.isEmpty_iff.mp h2
        rw [h2']
        simp [lookupSet, assocFind]
      · rw [if_neg h2]
        rw [gutpb_fold_mem]
        simp [lookupSet]
  · exact lookupSet_mergeEntries extra bounds k b' hnd

/-- Witness for claim C4: merging an inferred `T: core::fmt::Display` with an
explicit `T: core::fmt::Debug` keeps both bounds under the key `T`. -/
theorem claim_C4_witness :
    trait_name_to_trait_bound "Debug" ∈
      lookupSet
        (mergeBounds [(SynType.param "T", [trait_name_to_trait_bound "Display"])]
          [(SynType.param "T", [trait_name_to_trait_bound "Debug"])])
        (SynType.param "T") := by
  refine (claim_C4_union_of_bounds ["T"] Fields.unit "" [] (SynType.param "T")
      (trait_name_to_trait_bound "Debug")
      [(SynType.param "T", [trait_name_to_trait_bound "Display"])]
      [(SynType.param "T", [trait_name_to_trait_bound "Debug"])]
      (SynType.param "T") (trait_name_to_trait_bound "Debug")
      (by decide)).2.mpr ?_
  right
  decide

/-- Claim C5 (code bug): for a one-field generic struct with no explicit
format string, bounds inference is claimed to yield exactly
`T: <derived trait>`; it does so for `Display` (and the other traits with an
arm in `attribute_name_to_trait_name`), but for the `Debug` derive — whose
attribute name `"debug"` is produced by `trait_name_to_attribute_name` — the
inference hits the `unreachable!()` arm and panics instead. -/
theorem claim_C5_debug_inference_panics :
    trait_name_to_attribute_name "Debug" = some "debug" ∧
    infer_type_params_bounds ["T"] (Fields.unnamed [⟨none, SynType.param "T"⟩])
        "debug" = MacroResult.panicked ∧
    infer_type_params_bounds ["T"] (Fields.unnamed [⟨none, SynType.param "T"⟩])
        "display" =
      MacroResult.ok [(SynType.param "T", [trait_name_to_trait_bound "Display"])] := by
  refine ⟨by decide, by decide, by decide⟩

/-- Claim C6: with the spec-mandated deterministic collections, the emission
orders the generator uses are functions of the input alone: the where-clause
entries of the merged bounds appear in first-insertion order (inferred keys in
order, then the new explicit keys in order), and the interpolated named
arguments appear in first-occurrence order of the placeholder list — so two
runs on byte-identical input emit identical output. -/
theorem claim_C6_deterministic_emission (inferred explicit : Bounds)
    (pls : List Placeholder) (hnd : (keysOf explicit).Nodup) :
    keysOf (mergeBounds inferred explicit) =
      keysOf inferred ++ (keysOf explicit).filter (fun k => k ∉ keysOf inferred) ∧
    interpolated_args pls = dedupFirst (named_params pls) := by
  constructor
  · exact keysOf_mergeEntries explicit inferred hnd
  · unfold interpolated_args
    rw [foldl_setInsert_eq_append_dedupFirst]
    simp

/-- Witness for claim C6: two concrete bounds maps merge with the where-clause
keys in deterministic first-insertion order. -/
theorem claim_C6_witness :
    keysOf (mergeBounds [(SynType.param "T", [trait_name_to_trait_bound "Display"])]
        [(SynType.param "U", [trait_name_to_trait_bound "Debug"])]) =
      [SynType.param "T", SynType.param "U"] := by
  have h := (claim_C6_deterministic_emission
    [(SynType.param "T", [trait_name_to_trait_bound "Display"])]
    [(SynType.param "U", [trait_name_to_trait_bound "Debug"])] [] (by decide)).1
  rw [h]
  decide

/-- Claim C10: every distinct named parameter referenced by the placeholders
of an explicit format string (as primary argument, width or precision) is
passed through to the generated formatting call exactly once, however many
placeholders reference it, and positional arguments never generate such a
binding. -/
theorem claim_C10_named_args_passed_once (pls : List Placeholder) (name : String) :
    ((interpolated_args pls).count name =
      if name ∈ named_params pls then 1 else 0) ∧
    (name ∈ named_params pls ↔
      ∃ pl ∈ pls, pl.arg = Parameter.named name ∨
        pl.width = some (Parameter.named name) ∨
        pl.precision = some (Parameter.named name)) := by
  constructor
  · have hmem : name ∈ interpolated_args pls ↔ name ∈ named_params pls := by
      have h := mem_setExtend ([] : List String) (named_params pls) name
      simpa [interpolated_args, setExtend] using h
    have hnd : (interpolated_args pls).Nodup := by
      have h := nodup_setExtend ([] : List String) (named_params pls) (by simp)
      simpa [interpolated_args, setExtend] using h
    by_cases h : name ∈ named_params pls
    · rw [if_pos h]
      exact List.count_eq_one_of_mem hnd (hmem.mpr h)
    · rw [if_neg h]
      exact List.count_eq_zero_of_not_mem (fun hc => h (hmem.mp hc))
  · simp only [named_params, List.mem_flatMap, List.mem_append, Option.mem_toList,
      Option.mem_def, map_argument_eq_some, bind_map_argument_eq_some]
    constructor
    · rintro ⟨pl, hpl, (h | h) | h⟩
      · exact ⟨pl, hpl, Or.inl h⟩
      · exact ⟨pl, hpl, Or.inr (Or.inl h)⟩
      · exact ⟨pl, hpl, Or.inr (Or.inr h)⟩
    · rintro ⟨pl, hpl, h | h | h⟩
      · exact ⟨pl, hpl, Or.inl (Or.inl h)⟩
      · exact ⟨pl, hpl, Or.inl (Or.inr h)⟩
      · exact ⟨pl, hpl, Or.inr h⟩

/-! ## Attribute metadata, body inference and the format-attribute parser -/

/-- A literal in an attribute value (`syn::Lit`, restricted to what the code
inspects). -/
inductive Lit
  | str (s : String)
  | other
  deriving DecidableEq

/-- One entry of a parenthesized attribute list (`syn::NestedMeta`). -/
inductive NestedMeta
  | lit (l : Lit)
  | metaPath (p : String)
  | metaNameValue (path : String) (lit : Lit)
  | metaOther
  deriving DecidableEq

/-- A parsed attribute body (`syn::Meta`). -/
inductive Meta
  | list (nested : List NestedMeta)
  | path (p : String)
  | nameValue (path : String) (lit : Lit)
  deriving DecidableEq

/-- The inferred format body produced by `State::infer_fmt`: write the name as
a literal, or delegate the single field (by name, or `_0` for tuple fields)
to the derived trait. -/
inductive FmtBody
  | writeName (name : String)
  | delegateNamed (ident : String)
  | delegateUnnamed
  deriving DecidableEq

/-- Whether an inferred body is a single-field delegate. -/
def FmtBody.isDelegate : FmtBody → Bool
  | .writeName _ => false
  | _ => true

/-- `State::infer_fmt` (`display.rs` lines 456-483). -/
def infer_fmt (fields : Fields) (name : String) : Except String FmtBody :=
  match fields with
  | .unit => .ok (.writeName name)
  | .named fs | .unnamed fs =>
    match fs with
    | [] => .ok (.writeName name)
    | [f] =>
      match f.ident with
      | some id => .ok (.delegateNamed id)
      | none => .ok .delegateUnnamed
    | _ :: _ :: _ =>
      .error "Cannot automatically infer format for types with more than 1 field"

/-- The expected-affix-usage message (`display.rs` line 370). -/
def expected_affix_usage : String :=
  "outer `enum` `fmt` is an affix spec that expects no args and at most 1 placeholder for inner variant display"

/-- The message of `State::get_proper_fmt_syntax` (`display.rs` lines 186-191). -/
def proper_fmt_message (trait_attr : String) : String :=
  "Proper syntax: #[" ++ trait_attr ++ "(fmt = \"My format\", \"arg1\", \"arg2\")]"

/-- The generated formatting expression produced by `State::parse_meta_fmt`:
either the bare outer format literal (one-placeholder affix case) or a
`write!` call with its explicit arguments and interpolated named bindings. -/
inductive FmtExpr
  | affix (fmt : String)
  | write (fmt : String) (args : List String) (interpolated : List String)
  deriving DecidableEq

/-- The explicit-argument fold of `State::parse_meta_fmt` (`display.rs` lines
394-416): string literals are re-lexed as token streams (host-language lexing
assumed to succeed), bare paths pass through, anything else is a
proper-syntax error. -/
def parse_fmt_call_args (trait_attr : String) (nested : List NestedMeta) :
    Except String (List String) :=
  (nested.drop 1).foldlM
    (fun acc arg =>
      match arg with
      | NestedMeta.lit (Lit.str s) => .ok (acc ++ [s])
      | NestedMeta.metaPath p => .ok (acc ++ [p])
      | _ => .error (proper_fmt_message trait_attr))
    []

/-- `State::parse_meta_fmt` (`display.rs` lines 352-455).  An empty nested
list makes `&list.nested[0]` panic; in the placeholder-shape check,
`list.nested[1].span()` is evaluated while `others` (the entries after the
format literal) is empty, which panics with an out-of-bounds index. -/
def parse_meta_fmt (trait_attr : String) (meta : Meta) (outer_enum : Bool) :
    MacroResult (FmtExpr × Bool) :=
  match meta with
  | Meta.list [] => .panicked
  | Meta.list (NestedMeta.metaNameValue p (Lit.str fmt) :: others) =>
    if p = "fmt" then
      let placeholders := Placeholder.parse_fmt_string fmt
      if outer_enum && decide (others.length ≠ 0) then
        .err expected_affix_usage
      else if outer_enum &&
          (decide (placeholders.length > 1) ||
            ((placeholders.head?.map
              (fun pl => decide (pl.arg ≠ Parameter.positional 0))).getD false)) then
        match others.head? with
        | none => .panicked
        | some _ => .err expected_affix_usage
      else if outer_enum && decide (placeholders.length = 1) then
        .ok (.affix fmt, true)
      else
        match parse_fmt_call_args trait_attr
            (NestedMeta.metaNameValue p (Lit.str fmt) :: others) with
        | .error e => .err e
        | .ok args => .ok (.write fmt args (interpolated_args placeholders), false)
    else .err (proper_fmt_message trait_attr)
  | Meta.list (_ :: _) => .err (proper_fmt_message trait_attr)
  | _ => .err (proper_fmt_message trait_attr)

/-- An attribute attached to an item, variant or field: its path and parsed
body (the host-language `parse_meta` lex is external and assumed to
succeed). -/
structure Attribute where
  path : String
  meta : Meta
  deriving DecidableEq

/-- `ALLOWED_ATTRIBUTE_ARGUMENTS` (`display.rs` line 15). -/
def ALLOWED_ATTRIBUTE_ARGUMENTS : List String := ["fmt", "bound"]

/-- The accumulating loop of `State::find_meta` (`display.rs` lines 223-273):
non-list occurrences are skipped, a list occurrence must lead with an
allow-listed name-value pair, and occurrences matching the key are
collected. -/
def find_meta_loop (meta_key : String) :
    List Attribute → List Meta → Except String (List Meta)
  | [], acc => .ok acc
  | attr :: rest, acc =>
    match attr.meta with
    | Meta.list (NestedMeta.metaNameValue p _ :: _) =>
      if ¬ (ALLOWED_ATTRIBUTE_ARGUMENTS.contains p) then
        .error ("Unknown attribute argument " ++ p)
      else if p = meta_key then
        find_meta_loop meta_key rest (acc ++ [attr.meta])
      else
        find_meta_loop meta_key rest acc
    | Meta.list _ =>
      .error "The format for this attribute cannot be parsed"
    | _ => find_meta_loop meta_key rest acc

/-- `State::find_meta` (`display.rs` lines 218-282). -/
def find_meta (trait_attr : String) (attrs : List Attribute) (meta_key : String) :
    Except String (Option Meta) :=
  match find_meta_loop meta_key (attrs.filter (fun a => a.path = trait_attr)) [] with
  | .error e => .error e
  | .ok [] => .ok none
  | .ok [m] => .ok (some m)
  | .ok _ => .error "Too many attributes specified"

/-- Classification used for the corrected claim C8: a list-shaped occurrence
whose first entry is missing, not a name-value pair, or names an unrecognized
argument; such an occurrence is a hard error when reached. -/
def Attribute.bad_shape (a : Attribute) : Bool :=
  match a.meta with
  | Meta.list (NestedMeta.metaNameValue p _ :: _) =>
    !(ALLOWED_ATTRIBUTE_ARGUMENTS.contains p)
  | Meta.list _ => true
  | _ => false

/-- A list-shaped occurrence whose first entry is `key = ...`. -/
def Attribute.matches_key (key : String) (a : Attribute) : Bool :=
  match a.meta with
  | Meta.list (NestedMeta.metaNameValue p _ :: _) => p = key
  | _ => false

/-! ## Claims C3, C8 and C9: attribute interpretation and body inference -/

/-- Claim C3 (code bug): for an enum-level format attribute, a format string
with more than one placeholder, or a single placeholder not referencing
positional argument 0, is claimed to produce a returned error value, never a
crash; with no extra arguments the code instead evaluates
`list.nested[1].span()` while `nested` holds a single entry and panics with
an out-of-bounds index. With an extra argument present, the claimed error
value is returned. -/
theorem claim_C3_outer_enum_panic :
    parse_meta_fmt "display"
        (Meta.list [NestedMeta.metaNameValue "fmt" (Lit.str "\x7b\x7d\x7b\x7d")]) true
      = MacroResult.panicked ∧
    parse_meta_fmt "display"
        (Meta.list [NestedMeta.metaNameValue "fmt" (Lit.str "\x7b1\x7d")]) true
      = MacroResult.panicked ∧
    parse_meta_fmt "display"
        (Meta.list [NestedMeta.metaNameValue "fmt" (Lit.str "\x7b\x7d\x7b\x7d"),
          NestedMeta.metaPath "arg"]) true
      = MacroResult.err expected_affix_usage := by
  refine ⟨by decide, by decide, by decide⟩

/-- Claim C8 counterexample: with the attribute namespace present only through
a `bound = ...` occurrence, the `fmt` lookup returns `None` although the
namespace is not absent from the attachment point, contradicting the claim
that `None` is returned only when the namespace is entirely absent. -/
theorem claim_C8_counterexample :
    find_meta "display"
        [⟨"display", Meta.list [NestedMeta.metaNameValue "bound" (Lit.str "T: MyTrait")]⟩]
        "fmt" = Except.ok none ∧
    ([(⟨"display", Meta.list [NestedMeta.metaNameValue "bound" (Lit.str "T: MyTrait")]⟩ :
        Attribute)].filter (fun a => a.path = "display")) ≠ [] := by
  refine ⟨rfl, by decide⟩

theorem find_meta_loop_ok (key : String) (l : List Attribute) :
    ∀ acc : List Meta, (∀ a ∈ l, a.bad_shape = false) →
      find_meta_loop key l acc =
        .ok (acc ++ (l.filter (Attribute.matches_key key)).map (fun a => a.meta)) := by
  induction l with
  | nil => intro acc _; simp [find_meta_loop]
  | cons a rest ih =>
    intro acc hgood
    have ha : a.bad_shape = false := hgood a (List.mem_cons_self a rest)
    have hrest : ∀ x ∈ rest, x.bad_shape = false :=
      fun x hx => hgood x (List.mem_cons_of_mem a hx)
    obtain ⟨apath, ameta⟩ := a
    rcases ameta with nested | p | ⟨p, lit⟩
    · rcases nested with _ | ⟨first, others⟩
      · simp [Attribute.bad_shape] at ha
      · rcases first with ⟨l'⟩ | p' | ⟨p', lit'⟩ | _
        · simp [Attribute.bad_shape] at ha
        · simp [Attribute.bad_shape] at ha
        · have hallowed : ALLOWED_ATTRIBUTE_ARGUMENTS.contains p' = true := by
            simpa [Attribute.bad_shape] using ha
          show (if ¬ (ALLOWED_ATTRIBUTE_ARGUMENTS.contains p') then _
            else if p' = key then _ else _) = _
          rw [if_neg (by simpa using hallowed)]
          by_cases hp : p' = key
          · rw [if_pos hp, ih _ hrest, List.filter_cons]
            simp [Attribute.matches_key, hp]
          · rw [if_neg hp, ih _ hrest, List.filter_cons]
            simp [Attribute.matches_key, hp]
        · simp [Attribute.bad_shape] at ha
    · show find_meta_loop key rest acc = _
      rw [ih _ hrest, List.filter_cons]
      simp [Attribute.matches_key]
    · show find_meta_loop key rest acc = _
      rw [ih _ hrest, List.filter_cons]
      simp [Attribute.matches_key]

theorem find_meta_loop_err (key : String) (l : List Attribute) :
    ∀ acc : List Meta, (∃ a ∈ l, a.bad_shape = true) →
      ∃ e, find_meta_loop key l acc = .error e := by
  induction l with
  | nil =>
    intro acc h
    obtain ⟨a, ha, _⟩ := h
    cases ha
  | cons a rest ih =>
    intro acc hbad
    obtain ⟨apath, ameta⟩ := a
    have hsplit : (Attribute.mk apath ameta).bad_shape = true ∨
        ∃ x ∈ rest, x.bad_shape = true := by
      obtain ⟨x, hx, hxbad⟩ := hbad
      rcases List.mem_cons.mp hx with rfl | hx'
      · exact Or.inl hxbad
      · exact Or.inr ⟨x, hx', hxbad⟩
    rcases ameta with nested | p | ⟨p, lit⟩
    · rcases nested with _ | ⟨first, others⟩
      · exact ⟨_, rfl⟩
      · rcases first with ⟨l'⟩ | p' | ⟨p', lit'⟩ | _
        · exact ⟨_, rfl⟩
        · exact ⟨_, rfl⟩
        · by_cases hallowed : ALLOWED_ATTRIBUTE_ARGUMENTS.contains p' = true
          · have hrest : ∃ x ∈ rest, x.bad_shape = true := by
              rcases hsplit with hb | hb
              · exfalso
                simp [Attribute.bad_shape] at hb
                exact hb (by simpa using hallowed)
              · exact hb
            show ∃ e, (if ¬ (ALLOWED_ATTRIBUTE_ARGUMENTS.contains p') then _
              else if p' = key then _ else _) = _
            rw [if_neg (by simpa using hallowed)]
            by_cases hp : p' = key
            · rw [if_pos hp]
              exact ih _ hrest
            · rw [if_neg hp]
              exact ih _ hrest
          · refine ⟨"Unknown attribute argument " ++ p', ?_⟩
            show (if ¬ (ALLOWED_ATTRIBUTE_ARGUMENTS.contains p') then _
              else if p' = key then _ else _) = _
            rw [if_pos (by simpa using hallowed)]
        · exact ⟨_, rfl⟩
    · have hrest : ∃ x ∈ rest, x.bad_shape = true := by
        rcases hsplit with hb | hb
        · exfalso
          simp [Attribute.bad_shape] at hb
        · exact hb
      exact ih _ hrest
    · have hrest : ∃ x ∈ rest, x.bad_shape = true := by
        rcases hsplit with hb | hb
        · exfalso
          simp [Attribute.bad_shape] at hb
        · exact hb
      exact ih _ hrest

/-- Claim C8 as amended: the lookup returns `None` exactly when no list-shaped
occurrence of the namespace carries a leading name-value entry matching the
key (occurrences of the other recognized key, and bare or name-value
occurrences of the namespace, are skipped); a list-shaped occurrence with a
missing, non-name-value or unrecognized first entry is a hard error; more
than one occurrence matching the key is a hard error, never a silent pick. -/
theorem claim_C8_amended (trait_attr key : String) (attrs : List Attribute) :
    ((∀ a ∈ attrs.filter (fun a => a.path = trait_attr), a.bad_shape = false) →
      (((attrs.filter (fun a => a.path = trait_attr)).filter
          (Attribute.matches_key key) = [] →
        find_meta trait_attr attrs key = .ok none) ∧
       (∀ a, (attrs.filter (fun a => a.path = trait_attr)).filter
          (Attribute.matches_key key) = [a] →
        find_meta trait_attr attrs key = .ok (some a.meta)) ∧
       (2 ≤ ((attrs.filter (fun a => a.path = trait_attr)).filter
          (Attribute.matches_key key)).length →
        ∃ e, find_meta trait_attr attrs key = .error e))) ∧
    ((∃ a ∈ attrs.filter (fun a => a.path = trait_attr), a.bad_shape = true) →
      ∃ e, find_meta trait_attr attrs key = .error e) := by
  constructor
  · intro hgood
    have hok := find_meta_loop_ok key (attrs.filter (fun a => a.path = trait_attr)) [] hgood
    refine ⟨?_, ?_, ?_⟩
    · intro hnil
      unfold find_meta
      rw [hok, hnil]
      rfl
    · intro a hone
      unfold find_meta
      rw [hok, hone]
      rfl
    · intro hlen
      unfold find_meta
      rw [hok]
      match hm : ((attrs.filter (fun a => a.path = trait_attr)).filter
          (Attribute.matches_key key)).map (fun a => a.meta) with
      | [] =>
        exfalso
        rw [List.map_eq_nil_iff] at hm
        rw [hm] at hlen
        cases hlen
      | [m] =>
        exfalso
        have hlen1 : ((attrs.filter (fun a => a.path = trait_attr)).filter
            (Attribute.matches_key key)).length = 1 := by
          have h := congrArg List.length hm
          simpa using h
        omega
      | m1 :: m2 :: ms =>
        refine ⟨"Too many attributes specified", ?_⟩
        rw [hm]
        rfl
  · intro hbad
    obtain ⟨e, he⟩ := find_meta_loop_err key (attrs.filter (fun a => a.path = trait_attr)) [] hbad
    refine ⟨e, ?_⟩
    unfold find_meta
    rw [he]

/-- Witness for the amended claim C8: a single well-formed `fmt` occurrence is
found and returned. -/
theorem claim_C8_witness :
    find_meta "display"
        [⟨"display", Meta.list [NestedMeta.metaNameValue "fmt" (Lit.str "abc")]⟩]
        "fmt"
      = Except.ok (some (Meta.list [NestedMeta.metaNameValue "fmt" (Lit.str "abc")])) := by
  exact ((claim_C8_amended "display" "fmt"
      [⟨"display", Meta.list [NestedMeta.metaNameValue "fmt" (Lit.str "abc")]⟩]).1
    (by decide)).2.1
    ⟨"display", Meta.list [NestedMeta.metaNameValue "fmt" (Lit.str "abc")]⟩
    (by decide)

/-- Claim C9: a shape with zero fields and no explicit format string infers a
body writing exactly the declared type or variant name as a literal (no field
delegation), and the single-field delegate is produced exactly when one field
is present. -/
theorem claim_C9_zero_field_inference (fields : Fields) (name : String) :
    (fields.fieldList.length = 0 →
      infer_fmt fields name = .ok (.writeName name)) ∧
    (fields.fieldList.length = 1 →
      ∃ b, infer_fmt fields name = .ok b ∧ b.isDelegate = true) ∧
    (∀ b, infer_fmt fields name = .ok b → b.isDelegate = true →
      fields.fieldList.length = 1) := by
  cases fields with
  | unit =>
    refine ⟨fun _ => rfl, ?_, ?_⟩
    · intro h
      simp [Fields.fieldList] at h
    · intro b hb hd
      simp only [infer_fmt] at hb
      cases hb
      simp [FmtBody.isDelegate] at hd
  | named fs =>
    match fs with
    | [] =>
      refine ⟨fun _ => rfl, ?_, ?_⟩
      · intro h
        simp [Fields.fieldList] at h
      · intro b hb hd
        simp only [infer_fmt] at hb
        cases hb
        simp [FmtBody.isDelegate] at hd
    | [f] =>
      refine ⟨?_, ?_, ?_⟩
      · intro h
        simp [Fields.fieldList] at h
      · intro _
        cases hid : f.ident with
        | some id =>
          exact ⟨.delegateNamed id, by simp [infer_fmt, hid], rfl⟩
        | none =>
          exact ⟨.delegateUnnamed, by simp [infer_fmt, hid], rfl⟩
      · intro b _ _
        rfl
    | f1 :: f2 :: rest =>
      refine ⟨?_, ?_, ?_⟩
      · intro h
        simp [Fields.fieldList] at h
      · intro h
        simp [Fields.fieldList] at h
      · intro b hb _
        simp only [infer_fmt] at hb
        cases hb
  | unnamed fs =>
    match fs with
    | [] =>
      refine ⟨fun _ => rfl, ?_, ?_⟩
      · intro h
        simp [Fields.fieldList] at h
      · intro b hb hd
        simp only [infer_fmt] at hb
        cases hb
        simp [FmtBody.isDelegate] at hd
    | [f] =>
      refine ⟨?_, ?_, ?_⟩
      · intro h
        simp [Fields.fieldList] at h
      · intro _
        cases hid : f.ident with
        | some id =>
          exact ⟨.delegateNamed id, by simp [infer_fmt, hid], rfl⟩
        | none =>
          exact ⟨.delegateUnnamed, by simp [infer_fmt, hid], rfl⟩
      · intro b _ _
        rfl
    | f1 :: f2 :: rest =>
      refine ⟨?_, ?_, ?_⟩
      · intro h
        simp [Fields.fieldList] at h
      · intro h
        simp [Fields.fieldList] at h
      · intro b hb _
        simp only [infer_fmt] at hb
        cases hb

/-- Witness for claim C9: a fieldless named-shape variant formats as its bare
name. -/
theorem claim_C9_witness :
    infer_fmt (Fields.named []) "UnitVariant" =
      Except.ok (FmtBody.writeName "UnitVariant") :=
  (claim_C9_zero_field_inference (Fields.named []) "UnitVariant").1 rfl

/-! ## The bounds-literal parser (claim C7) -/

/-- A single bound inside a bound clause (`syn::TypeParamBound`): a trait
bound, which may carry higher-rank `for` lifetimes, or a lifetime bound. -/
inductive TypeParamBound
  | traitBound (hasLifetimes : Bool) (path : List String)
  | lifetimeBound
  deriving DecidableEq

/-- A parsed `syn::TypeParam` clause of the bounds literal: its name, whether
it carries attributes, whether it carries a default, and its listed bounds. -/
structure TypeParamClause where
  ident : String
  hasAttrs : Bool
  hasDefault : Bool
  bounds : List TypeParamBound
  deriving DecidableEq

/-- A parsed generic parameter of the bounds literal (`syn::GenericParam`). -/
inductive GenericParam
  | typeParam (tp : TypeParamClause)
  | lifetimeParam
  | constParam
  deriving DecidableEq

/-- The per-bound step of the clause loop of `State::parse_meta_bounds`
(`display.rs` lines 327-340). -/
def pmb_bound_step (s : List TraitBound) :
    TypeParamBound → Except String (List TraitBound)
  | TypeParamBound.lifetimeBound => .error "Only trait bounds allowed"
  | TypeParamBound.traitBound hasLt path =>
    if hasLt then .error "Higher-rank trait bounds aren't allowed"
    else .ok (setInsert s (TraitBound.mk path))

/-- Processing of one clause by `State::parse_meta_bounds` (`display.rs`
lines 303-348): validate the parameter, insert its bounds into the entry of
the accumulated map, and reject the entry when it is left empty. -/
def parse_meta_bounds_clause (type_params : List String) (bounds : Bounds) :
    GenericParam → Except String Bounds
  | GenericParam.lifetimeParam => .error "Only trait bounds allowed"
  | GenericParam.constParam => .error "Only trait bounds allowed"
  | GenericParam.typeParam tp =>
    if ¬ (type_params.contains tp.ident) then
      .error "Unknown generic type argument specified"
    else if tp.hasAttrs then .error "Attributes aren't allowed"
    else if tp.hasDefault then .error "Default type parameters aren't allowed"
    else
      match tp.bounds.foldlM pmb_bound_step
          (lookupSet bounds (SynType.param tp.ident)) with
      | .error e => .error e
      | .ok s =>
        if s.isEmpty then
          .error ("No bounds specified for type parameter " ++ tp.ident)
        else .ok (entrySetTo bounds (SynType.param tp.ident) s)

/-- `State::parse_meta_bounds` (`display.rs` lines 283-351), over the clause
list produced by the host-language parse of the bounds literal. -/
def parse_meta_bounds (type_params : List String) (gps : List GenericParam) :
    Except String Bounds :=
  if gps.isEmpty then .error "No bounds specified"
  else gps.foldlM (parse_meta_bounds_clause type_params) []

/-- Whether a bound list holds a non-trait (lifetime) or higher-rank bound. -/
def has_bad_bound (bounds : List TypeParamBound) : Bool :=
  bounds.any (fun b =>
    match b with
    | TypeParamBound.lifetimeBound => true
    | TypeParamBound.traitBound hasLt _ => hasLt)

/-- The trait bounds a clause's bound list contributes. -/
def clause_trait_bounds (bounds : List TypeParamBound) : List TraitBound :=
  bounds.filterMap (fun b =>
    match b with
    | TypeParamBound.traitBound false path => some (TraitBound.mk path)
    | _ => none)

/-- The trait bounds a bounds literal lists for `name` across its clauses
(the claim's "its listed trait bounds"). -/
def listed_trait_bounds (gps : List GenericParam) (name : String) :
    List TraitBound :=
  gps.flatMap (fun gp =>
    match gp with
    | GenericParam.typeParam tp =>
      if tp.ident = name then clause_trait_bounds tp.bounds else []
    | _ => [])

/-- The corrected per-clause rejection condition, relative to the already
processed clauses: wrong parameter kind, unknown name, attributes, a default,
a non-trait or higher-rank bound, or a bound set left empty for the clause's
parameter after this clause. -/
def clause_bad (type_params : List String) (processed : List GenericParam) :
    GenericParam → Bool
  | GenericParam.typeParam tp =>
    !(type_params.contains tp.ident) || tp.hasAttrs || tp.hasDefault ||
    has_bad_bound tp.bounds ||
    (listed_trait_bounds (processed ++ [GenericParam.typeParam tp]) tp.ident).isEmpty
  | _ => true

/-- The corrected rejection condition over a clause list, threading the
processed prefix. -/
def pmb_rejects_from (type_params : List String) :
    List GenericParam → List GenericParam → Bool
  | _, [] => false
  | processed, gp :: rest =>
    clause_bad type_params processed gp ||
      pmb_rejects_from type_params (processed ++ [gp]) rest

/-- The corrected overall rejection condition of the bounds-literal parser. -/
def pmb_rejects (type_params : List String) (gps : List GenericParam) : Bool :=
  gps.isEmpty || pmb_rejects_from type_params [] gps

/-- A clause that triggers none of the claim's structural rejection
conditions: a type-parameter clause over a declared name, without attributes,
defaults, higher-rank or non-trait bounds. -/
def pmb_wellformed_clause (type_params : List String) : GenericParam → Bool
  | GenericParam.typeParam tp =>
    type_params.contains tp.ident && !tp.hasAttrs && !tp.hasDefault &&
      !(has_bad_bound tp.bounds)
  | _ => false

/-- The parsed clause list of the bounds literal `T, T: Display`, claim C7's
counterexample input. -/
def c7_counterexample_input : List GenericParam :=
  [GenericParam.typeParam ⟨"T", false, false, []⟩,
   GenericParam.typeParam ⟨"T", false, false,
     [TypeParamBound.traitBound false ["Display"]]⟩]

/-- The parsed clause list of the bounds literal `T: Display`, claim C7's
witness input. -/
def c7_witness_input : List GenericParam :=
  [GenericParam.typeParam ⟨"T", false, false,
    [TypeParamBound.traitBound false ["Display"]]⟩]

/-! ## Claim C7: theorems -/

theorem setExtend_eq_nil_iff {β : Type} [DecidableEq β] (s bs : List β) :
    setExtend s bs = [] ↔ s = [] ∧ bs = [] := by
  constructor
  · intro h
    constructor
    · by_contra hs
      obtain ⟨x, hx⟩ := List.exists_mem_of_ne_nil s hs
      have hmem : x ∈ setExtend s bs := (mem_setExtend s bs x).mpr (Or.inl hx)
      rw [h] at hmem
      cases hmem
    · by_contra hbs
      obtain ⟨x, hx⟩ := List.exists_mem_of_ne_nil bs hbs
      have hmem : x ∈ setExtend s bs := (mem_setExtend s bs x).mpr (Or.inr hx)
      rw [h] at hmem
      cases hmem
  · rintro ⟨rfl, rfl⟩
    rfl

theorem setExtend_append {β : Type} [DecidableEq β] (s a b : List β) :
    setExtend s (a ++ b) = setExtend (setExtend s a) b := by
  simp [setExtend, List.foldl_append]

theorem setExtend_nil_eq_dedupFirst {β : Type} [DecidableEq β] (l : List β) :
    setExtend ([] : List β) l = dedupFirst l := by
  unfold setExtend
  rw [foldl_setInsert_eq_append_dedupFirst]
  simp

theorem listed_trait_bounds_append (gps1 gps2 : List GenericParam) (name : String) :
    listed_trait_bounds (gps1 ++ gps2) name =
      listed_trait_bounds gps1 name ++ listed_trait_bounds gps2 name := by
  simp [listed_trait_bounds]

theorem listed_trait_bounds_single (tp : TypeParamClause) (name : String) :
    listed_trait_bounds [GenericParam.typeParam tp] name =
      if tp.ident = name then clause_trait_bounds tp.bounds else [] := by
  simp [listed_trait_bounds]

theorem pmb_bound_fold_err (bounds : List TypeParamBound) :
    ∀ s : List TraitBound, has_bad_bound bounds = true →
      ∃ e, bounds.foldlM pmb_bound_step s = .error e := by
  induction bounds with
  | nil =>
    intro s h
    simp [has_bad_bound] at h
  | cons b rest ih =>
    intro s h
    match b with
    | TypeParamBound.lifetimeBound => exact ⟨"Only trait bounds allowed", rfl⟩
    | TypeParamBound.traitBound hasLt path =>
      by_cases hlt : hasLt = true
      · subst hlt
        exact ⟨"Higher-rank trait bounds aren't allowed", rfl⟩
      · have hlt' : hasLt = false := by
          cases hasLt
          · rfl
          · exact absurd rfl hlt
        subst hlt'
        have hrest : has_bad_bound rest = true := by
          simpa [has_bad_bound] using h
        obtain ⟨e, he⟩ := ih (setInsert s (TraitBound.mk path)) hrest
        refine ⟨e, ?_⟩
        rw [List.foldlM_cons]
        show (pmb_bound_step s (TypeParamBound.traitBound false path) >>= fun s' =>
          rest.foldlM pmb_bound_step s') = Except.error e
        simpa [pmb_bound_step] using he

theorem pmb_bound_fold_ok (bounds : List TypeParamBound) :
    ∀ s : List TraitBound, has_bad_bound bounds = false →
      bounds.foldlM pmb_bound_step s =
        .ok (setExtend s (clause_trait_bounds bounds)) := by
  induction bounds with
  | nil => intro s _; rfl
  | cons b rest ih =>
    intro s h
    match b with
    | TypeParamBound.lifetimeBound => simp [has_bad_bound] at h
    | TypeParamBound.traitBound hasLt path =>
      have hlt : hasLt = false := by
        cases hasLt
        · rfl
        · simp [has_bad_bound] at h
      subst hlt
      have hrest : has_bad_bound rest = false := by
        simpa [has_bad_bound] using h
      rw [List.foldlM_cons]
      show (pmb_bound_step s (TypeParamBound.traitBound false path) >>= fun s' =>
        rest.foldlM pmb_bound_step s') = _
      simp only [pmb_bound_step, if_neg (by simp : ¬ (false = true))]
      show rest.foldlM pmb_bound_step (setInsert s (TraitBound.mk path)) = _
      rw [ih _ hrest]
      rfl

theorem parse_meta_bounds_clause_typeParam (type_params : List String) (m : Bounds)
    (tp : TypeParamClause) :
    parse_meta_bounds_clause type_params m (GenericParam.typeParam tp) =
      if ¬ (type_params.contains tp.ident) then
        Except.error "Unknown generic type argument specified"
      else if tp.hasAttrs then Except.error "Attributes aren't allowed"
      else if tp.hasDefault then Except.error "Default type parameters aren't allowed"
      else
        match tp.bounds.foldlM pmb_bound_step
            (lookupSet m (SynType.param tp.ident)) with
        | .error e => .error e
        | .ok s =>
          if s.isEmpty then
            Except.error ("No bounds specified for type parameter " ++ tp.ident)
          else .ok (entrySetTo m (SynType.param tp.ident) s) := rfl

theorem pmb_clause_spec (type_params : List String) (processed : List GenericParam)
    (m : Bounds) (gp : GenericParam)
    (hm : ∀ name, lookupSet m (SynType.param name) =
      setExtend [] (listed_trait_bounds processed name)) :
    (clause_bad type_params processed gp = true →
      ∃ e, parse_meta_bounds_clause type_params m gp = .error e) ∧
    (clause_bad type_params processed gp = false →
      ∃ m', parse_meta_bounds_clause type_params m gp = .ok m' ∧
        ∀ name, lookupSet m' (SynType.param name) =
          setExtend [] (listed_trait_bounds (processed ++ [gp]) name)) := by
  cases gp with
  | lifetimeParam =>
    exact ⟨fun _ => ⟨"Only trait bounds allowed", rfl⟩,
      fun h => by simp [clause_bad] at h⟩
  | constParam =>
    exact ⟨fun _ => ⟨"Only trait bounds allowed", rfl⟩,
      fun h => by simp [clause_bad] at h⟩
  | typeParam tp =>
    by_cases hknown : type_params.contains tp.ident = true
    · have hmem : tp.ident ∈ type_params := by simpa using hknown
      by_cases hattrs : tp.hasAttrs = true
      · constructor
        · intro _
          refine ⟨"Attributes aren't allowed", ?_⟩
          rw [parse_meta_bounds_clause_typeParam]
          rw [if_neg (by simpa using hknown), if_pos hattrs]
        · intro hbf
          simp [clause_bad, hattrs] at hbf
      · have hattrs' : tp.hasAttrs = false := by
          cases ha : tp.hasAttrs
          · rfl
          · exact absurd ha hattrs
        by_cases hdef : tp.hasDefault = true
        · constructor
          · intro _
            refine ⟨"Default type parameters aren't allowed", ?_⟩
            rw [parse_meta_bounds_clause_typeParam]
            rw [if_neg (by simpa using hknown), if_neg (by simp [hattrs']),
              if_pos hdef]
          · intro hbf
            simp [clause_bad, hdef] at hbf
        · have hdef' : tp.hasDefault = false := by
            cases hd : tp.hasDefault
            · rfl
            · exact absurd hd hdef
          by_cases hbb : has_bad_bound tp.bounds = true
          · constructor
            · intro _
              obtain ⟨e, he⟩ := pmb_bound_fold_err tp.bounds
                (lookupSet m (SynType.param tp.ident)) hbb
              refine ⟨e, ?_⟩
              rw [parse_meta_bounds_clause_typeParam]
              rw [if_neg (by simpa using hknown), if_neg (by simp [hattrs']),
                if_neg (by simp [hdef']), he]
            · intro hbf
              simp [clause_bad, hbb] at hbf
          · have hbb' : has_bad_bound tp.bounds = false := by
              cases hb : has_bad_bound tp.bounds
              · rfl
              · exact absurd hb hbb
            have hfold := pmb_bound_fold_ok tp.bounds
              (lookupSet m (SynType.param tp.ident)) hbb'
            have hcur : lookupSet m (SynType.param tp.ident) =
                setExtend [] (listed_trait_bounds processed tp.ident) :=
              hm tp.ident
            have hlast : listed_trait_bounds
                (processed ++ [GenericParam.typeParam tp]) tp.ident =
                listed_trait_bounds processed tp.ident ++
                  clause_trait_bounds tp.bounds := by
              rw [listed_trait_bounds_append, listed_trait_bounds_single]
              simp
            have hsval : setExtend (lookupSet m (SynType.param tp.ident))
                (clause_trait_bounds tp.bounds) =
                setExtend [] (listed_trait_bounds
                  (processed ++ [GenericParam.typeParam tp]) tp.ident) := by
              rw [hlast, setExtend_append, hcur]
            by_cases hempty : (listed_trait_bounds
                (processed ++ [GenericParam.typeParam tp]) tp.ident).isEmpty = true
            · constructor
              · intro _
                refine ⟨"No bounds specified for type parameter " ++ tp.ident, ?_⟩
                rw [parse_meta_bounds_clause_typeParam]
                rw [if_neg (by simpa using hknown), if_neg (by simp [hattrs']),
                  if_neg (by simp [hdef']), hfold]
                have hse : (setExtend (lookupSet m (SynType.param tp.ident))
                    (clause_trait_bounds tp.bounds)).isEmpty = true := by
                  rw [hsval]
                  rw [List.isEmpty_iff] at hempty ⊢
                  rw [hempty]
                  rfl
                show (if (setExtend (lookupSet m (SynType.param tp.ident))
                    (clause_trait_bounds tp.bounds)).isEmpty then
                      Except.error ("No bounds specified for type parameter " ++ tp.ident)
                    else Except.ok (entrySetTo m (SynType.param tp.ident)
                      (setExtend (lookupSet m (SynType.param tp.ident))
                        (clause_trait_bounds tp.bounds)))) =
                  Except.error ("No bounds specified for type parameter " ++ tp.ident)
                rw [if_pos hse]
              · intro hbf
                have hempty' : (listed_trait_bounds
                    (processed ++ [GenericParam.typeParam tp]) tp.ident) = [] :=
                  List.isEmpty_iff.mp hempty
                simp [clause_bad, hmem, hattrs', hdef', hbb', hempty'] at hbf
            · constructor
              · intro hbt
                have hempty' : (listed_trait_bounds
                    (processed ++ [GenericParam.typeParam tp]) tp.ident) ≠ [] := by
                  intro hcon
                  exact hempty (List.isEmpty_iff.mpr hcon)
                simp [clause_bad, hmem, hattrs', hdef', hbb', hempty'] at hbt
              · intro _
                have hse : (setExtend (lookupSet m (SynType.param tp.ident))
                    (clause_trait_bounds tp.bounds)).isEmpty = false := by
                  rw [hsval]
                  cases hie : (setExtend ([] : List TraitBound)
                      (listed_trait_bounds
                        (processed ++ [GenericParam.typeParam tp]) tp.ident)).isEmpty
                  · rfl
                  · exfalso
                    rw [List.isEmpty_iff] at hie
                    rw [setExtend_eq_nil_iff] at hie
                    rw [List.isEmpty_iff] at hempty
                    exact hempty hie.2
                refine ⟨entrySetTo m (SynType.param tp.ident)
                  (setExtend (lookupSet m (SynType.param tp.ident))
                    (clause_trait_bounds tp.bounds)), ?_, ?_⟩
                · rw [parse_meta_bounds_clause_typeParam]
                  rw [if_neg (by simpa using hknown), if_neg (by simp [hattrs']),
                    if_neg (by simp [hdef']), hfold]
                  show (if (setExtend (lookupSet m (SynType.param tp.ident))
                      (clause_trait_bounds tp.bounds)).isEmpty then
                        Except.error ("No bounds specified for type parameter " ++ tp.ident)
                      else Except.ok (entrySetTo m (SynType.param tp.ident)
                        (setExtend (lookupSet m (SynType.param tp.ident))
                          (clause_trait_bounds tp.bounds)))) = _
                  rw [if_neg (by simp [hse])]
                · intro name
                  rw [lookupSet_entrySetTo]
                  by_cases hname : SynType.param name = SynType.param tp.ident
                  · have hni : name = tp.ident := by
                      injection hname
                    subst hni
                    rw [if_pos rfl, hsval]
                  · rw [if_neg hname, hm name]
                    have hni : tp.ident ≠ name := by
                      intro hcon
                      exact hname (by rw [hcon])
                    congr 1
                    rw [listed_trait_bounds_append, listed_trait_bounds_single,
                      if_neg hni]
                    simp
    · constructor
      · intro _
        refine ⟨"Unknown generic type argument specified", ?_⟩
        rw [parse_meta_bounds_clause_typeParam]
        rw [if_pos (by simpa using hknown)]
      · intro hbf
        exfalso
        have hmem : tp.ident ∉ type_params := by simpa using hknown
        simp [clause_bad, hmem] at hbf

theorem pmb_fold_spec (type_params : List String) (gps : List GenericParam) :
    ∀ (processed : List GenericParam) (m : Bounds),
      (∀ name, lookupSet m (SynType.param name) =
        setExtend [] (listed_trait_bounds processed name)) →
      (pmb_rejects_from type_params processed gps = true →
        ∃ e, gps.foldlM (parse_meta_bounds_clause type_params) m = .error e) ∧
      (pmb_rejects_from type_params processed gps = false →
        ∃ m', gps.foldlM (parse_meta_bounds_clause type_params) m = .ok m' ∧
          ∀ name, lookupSet m' (SynType.param name) =
            setExtend [] (listed_trait_bounds (processed ++ gps) name)) := by
  induction gps with
  | nil =>
    intro processed m hm
    constructor
    · intro h
      simp [pmb_rejects_from] at h
    · intro _
      refine ⟨m, rfl, ?_⟩
      intro name
      rw [hm name]
      simp
  | cons gp rest ih =>
    intro processed m hm
    have hcl := pmb_clause_spec type_params processed m gp hm
    constructor
    · intro h
      cases hcb : clause_bad type_params processed gp with
      | true =>
        obtain ⟨e, he⟩ := hcl.1 hcb
        refine ⟨e, ?_⟩
        rw [List.foldlM_cons, he]
        rfl
      | false =>
        obtain ⟨m', hm', hinv⟩ := hcl.2 hcb
        have hrest : pmb_rejects_from type_params (processed ++ [gp]) rest = true := by
          simp only [pmb_rejects_from, hcb, Bool.false_or] at h
          exact h
        obtain ⟨e, he⟩ := (ih (processed ++ [gp]) m' hinv).1 hrest
        refine ⟨e, ?_⟩
        rw [List.foldlM_cons, hm']
        simpa using he
    · intro h
      have hcb : clause_bad type_params processed gp = false := by
        cases hc : clause_bad type_params processed gp
        · rfl
        · exfalso
          simp [pmb_rejects_from, hc] at h
      have hrest : pmb_rejects_from type_params (processed ++ [gp]) rest = false := by
        simp only [pmb_rejects_from, hcb, Bool.false_or] at h
        exact h
      obtain ⟨m', hm', hinv⟩ := hcl.2 hcb
      obtain ⟨m'', hm'', hinv2⟩ := (ih (processed ++ [gp]) m' hinv).2 hrest
      refine ⟨m'', ?_, ?_⟩
      · rw [List.foldlM_cons, hm']
        simpa using hm''
      · intro name
        rw [hinv2 name]
        congr 2
        simp

/-- Claim C7 as amended: the bounds-literal parser fails with a hard error
exactly when the clause list is empty, or some clause — processed in
left-to-right order — is not a plain type-parameter clause, names an
undeclared parameter, carries attributes or a default, lists a non-trait or
higher-rank bound, or leaves its parameter's accumulated bound set empty at
that point (in particular a clause listing zero bounds for a parameter not
already given bounds); otherwise it returns the mapping sending each named
parameter to the deduplicated set of its listed trait bounds. -/
theorem claim_C7_amended (type_params : List String) (gps : List GenericParam) :
    (pmb_rejects type_params gps = true →
      ∃ e, parse_meta_bounds type_params gps = .error e) ∧
    (pmb_rejects type_params gps = false →
      ∃ m, parse_meta_bounds type_params gps = .ok m ∧
        ∀ name, lookupSet m (SynType.param name) =
          dedupFirst (listed_trait_bounds gps name)) := by
  have hbase : ∀ name, lookupSet ([] : Bounds) (SynType.param name) =
      setExtend [] (listed_trait_bounds [] name) := fun name => rfl
  have hmain := pmb_fold_spec type_params gps [] [] hbase
  constructor
  · intro h
    by_cases hemp : gps.isEmpty = true
    · refine ⟨"No bounds specified", ?_⟩
      unfold parse_meta_bounds
      rw [if_pos hemp]
    · have h2 : pmb_rejects_from type_params [] gps = true := by
        have hemp' : gps.isEmpty = false := by
          cases he : gps.isEmpty
          · rfl
          · exact absurd he hemp
        simpa [pmb_rejects, hemp'] using h
      obtain ⟨e, he⟩ := hmain.1 h2
      refine ⟨e, ?_⟩
      unfold parse_meta_bounds
      rw [if_neg hemp]
      exact he
  · intro h
    have hemp : gps.isEmpty = false := by
      cases he : gps.isEmpty
      · rfl
      · exfalso
        simp [pmb_rejects, he] at h
    have h2 : pmb_rejects_from type_params [] gps = false := by
      simpa [pmb_rejects, hemp] using h
    obtain ⟨m, hm, hinv⟩ := hmain.2 h2
    refine ⟨m, ?_, ?_⟩
    · unfold parse_meta_bounds
      rw [if_neg (by simp [hemp])]
      exact hm
    · intro name
      rw [hinv name]
      rw [setExtend_nil_eq_dedupFirst, List.nil_append]

/-- Claim C7 counterexample: the bounds literal `T, T: Display` is nonempty,
every clause is a plain type-parameter clause over the declared `T` with no
attributes, defaults, higher-rank or non-trait bounds, and it leaves no named
parameter with zero bounds overall (the listed trait bounds of `T` are
nonempty) — so under the claim the mapping would be returned — yet the parser
rejects it, because the zero-bounds check runs per clause against the
accumulated set at that point, and the first clause `T` lists none. -/
theorem claim_C7_counterexample :
    parse_meta_bounds ["T"] c7_counterexample_input
      = Except.error "No bounds specified for type parameter T" ∧
    c7_counterexample_input ≠ [] ∧
    c7_counterexample_input.all (pmb_wellformed_clause ["T"]) = true ∧
    listed_trait_bounds c7_counterexample_input "T" ≠ [] := by
  refine ⟨rfl, by decide, by decide, by decide⟩

/-- Witness for the amended claim C7 at the accepted literal `T: Display`. -/
theorem claim_C7_witness :
    ∃ m, parse_meta_bounds ["T"] c7_witness_input = Except.ok m ∧
      lookupSet m (SynType.param "T") = [TraitBound.mk ["Display"]] := by
  obtain ⟨m, hm, hinv⟩ := (claim_C7_amended ["T"] c7_witness_input).2 (by decide)
  refine ⟨m, hm, (hinv "T").trans ?_⟩
  show dedupFirst (listed_trait_bounds c7_witness_input "T") = _
  have hlb : listed_trait_bounds c7_witness_input "T" = [TraitBound.mk ["Display"]] := by
    decide
  rw [hlb]
  simp [dedupFirst]

/-- Witness for claim C2 at the spec's own example `"\x7b},\x7b1},\x7b}"`:
the third placeholder lacks an explicit argument and receives implicit
positional index 1. -/
theorem claim_C2_witness :
    (Placeholder.parse_fmt_string "\x7b\x7d,\x7b1\x7d,\x7b\x7d")[2]? =
      some ⟨Parameter.positional 1, none, none, "Display"⟩ := by
  have h2 : 2 < (parsing.formats "\x7b\x7d,\x7b1\x7d,\x7b\x7d").length := by decide
  have hnone : ((parsing.formats "\x7b\x7d,\x7b1\x7d,\x7b\x7d").get ⟨2, h2⟩).arg = none := by
    rfl
  have hmain :=
    (claim_C2_implicit_positional_assignment "\x7b\x7d,\x7b1\x7d,\x7b\x7d" 2 h2).2.2 hnone
  exact hmain.trans (by rfl)

end DeriveMore
